import Mathlib

/-!
Verification of the riskEngine portfolio risk engine.

The C++ sources are shallowly embedded: `double` values become real numbers,
`std::vector` becomes `List`, instruments are identified by natural-number ids,
and the mutable simulator state is passed explicitly.  Fallible operations
(constructors that would divide or take a modulus by zero, out-of-bounds
indexing) return `Option`.  Each definition mirrors one function of the source
tree; theorems at the end settle the specification claims.
-/

noncomputable section

namespace RiskEngine

/-! ## Normal distribution helpers (model.hh)

The source computes the standard normal CDF as `0.5 * erfc(-x * M_SQRT1_2)`.
We fix `erfc` by its standard integral definition; both the embedded code and
the spec-side formulas refer to this single function, exactly as both the
source and the spec express the CDF through `erfc`. -/

/-- Complementary error function, `erfc x = (2/√π) ∫_x^∞ e^(−t²) dt`. -/
def erfc (x : ℝ) : ℝ := (2 / Real.sqrt Real.pi) * ∫ t in Set.Ioi x, Real.exp (-(t ^ 2))

/-- `BlackScholesModel::norm_cdf`: `0.5 * std::erfc(-x * M_SQRT1_2)`. -/
def norm_cdf (x : ℝ) : ℝ := 0.5 * erfc (-x * (Real.sqrt 2)⁻¹)

/-- `BlackScholesModel::norm_pdf`: `exp(-0.5*x*x) / sqrt(2π)`. -/
def norm_pdf (x : ℝ) : ℝ := Real.exp (-0.5 * x * x) / Real.sqrt (2 * Real.pi)

/-- `Greeks` struct of model.hh, every field defaulted to `0.0`. -/
structure Greeks where
  delta : ℝ := 0
  gamma : ℝ := 0
  vega : ℝ := 0
  theta : ℝ := 0
  rho : ℝ := 0

/-- `BlackScholesModel::price_option(S, K, T, r, sigma, is_call)` (model.hh). -/
def price_option (S K T r sigma : ℝ) (is_call : Bool) : ℝ :=
  if T ≤ 0 then
    if is_call then max 0 (S - K) else max 0 (K - S)
  else
    let d1 := (Real.log (S / K) + (r + 0.5 * sigma * sigma) * T) / (sigma * Real.sqrt T)
    let d2 := d1 - sigma * Real.sqrt T
    if is_call then
      S * norm_cdf d1 - K * Real.exp (-r * T) * norm_cdf d2
    else
      K * Real.exp (-r * T) * norm_cdf (-d2) - S * norm_cdf (-d1)

/-- `BlackScholesModel::calculate_greeks(S, K, T, r, sigma, is_call)` (model.hh). -/
def calculate_greeks (S K T r sigma : ℝ) (is_call : Bool) : Greeks :=
  if T ≤ 0 then
    { delta := if is_call then (if S > K then 1 else 0) else (if S < K then -1 else 0) }
  else
    let sqrt_T := Real.sqrt T
    let d1 := (Real.log (S / K) + (r + 0.5 * sigma * sigma) * T) / (sigma * sqrt_T)
    let d2 := d1 - sigma * sqrt_T
    let nd1 := norm_cdf d1
    let nd2 := norm_cdf d2
    let pdf_d1 := norm_pdf d1
    let discount := Real.exp (-r * T)
    { delta := if is_call then nd1 else nd1 - 1
      gamma := pdf_d1 / (S * sigma * sqrt_T)
      vega := S * pdf_d1 * sqrt_T
      theta := if is_call then
          -(S * pdf_d1 * sigma) / (2 * sqrt_T) - r * K * discount * nd2
        else
          -(S * pdf_d1 * sigma) / (2 * sqrt_T) + r * K * discount * norm_cdf (-d2)
      rho := if is_call then K * T * discount * nd2 else -(K * T * discount * norm_cdf (-d2)) }

/-! ## Spec-side formulas for claims C1 and C4

These definitions follow the words of the specification (spec.md §4.1), to be
compared with the embedded source functions above. -/

/-- Spec's `Φ(x) = 0.5·erfc(−x/√2)`. -/
def Phi_spec (x : ℝ) : ℝ := 0.5 * erfc (-x / Real.sqrt 2)

/-- Spec's `d₁ = (ln(S/K) + (r + σ²/2)T)/(σ√T)`. -/
def d1_spec (S K T r sigma : ℝ) : ℝ :=
  (Real.log (S / K) + (r + sigma ^ 2 / 2) * T) / (sigma * Real.sqrt T)

/-- Spec's `d₂ = d₁ − σ√T`. -/
def d2_spec (S K T r sigma : ℝ) : ℝ := d1_spec S K T r sigma - sigma * Real.sqrt T

/-- Spec's call value `S·Φ(d₁) − K·e^(−rT)·Φ(d₂)`. -/
def call_price_spec (S K T r sigma : ℝ) : ℝ :=
  S * Phi_spec (d1_spec S K T r sigma) -
    K * Real.exp (-r * T) * Phi_spec (d2_spec S K T r sigma)

/-- Spec's put value `K·e^(−rT)·Φ(−d₂) − S·Φ(−d₁)`. -/
def put_price_spec (S K T r sigma : ℝ) : ℝ :=
  K * Real.exp (-r * T) * Phi_spec (-(d2_spec S K T r sigma)) -
    S * Phi_spec (-(d1_spec S K T r sigma))

/-- Follows the claim C4's words: valuation that fails (returns `none`,
standing for the `InvalidInput` error) whenever `S ≤ 0`, `K ≤ 0` or `σ < 0`,
and otherwise returns the Black–Scholes value. -/
def price_option_validated (S K T r sigma : ℝ) (is_call : Bool) : Option ℝ :=
  if S ≤ 0 ∨ K ≤ 0 ∨ sigma < 0 then none
  else some (price_option S K T r sigma is_call)

/-! ## Correlation matrix and Cholesky factorization (claim C2)

The `CorrelationMatrix` class itself is not under src/ (only its callers in
main.cpp and model.cpp are), so it is modelled from the spec, §4.3. -/

/-- Modelled from the spec: the missing `CorrelationMatrix` class's cached
lower-triangular Cholesky factor, by the standard recurrence
`L[j][j] = √(Σ[j][j] − Σ_{k<j} L[j][k]²)` and
`L[i][j] = (Σ[i][j] − Σ_{k<j} L[i][k]·L[j][k]) / L[j][j]` for `i > j`;
entries above the diagonal are zero. -/
def cholE (A : ℕ → ℕ → ℝ) : ℕ → ℕ → ℝ
  | i, j =>
    if i < j then 0
    else if i = j then
      Real.sqrt (A j j - ∑ k ∈ (Finset.range j).attach, (cholE A j k.1) ^ 2)
    else
      (A i j - ∑ k ∈ (Finset.range j).attach, cholE A i k.1 * cholE A j k.1) / cholE A j j
termination_by i j => (j, i)
decreasing_by
  · exact Prod.Lex.left _ _ (Finset.mem_range.mp k.2)
  · exact Prod.Lex.left _ _ (Finset.mem_range.mp k.2)
  · exact Prod.Lex.left _ _ (Finset.mem_range.mp k.2)
  · exact Prod.Lex.right _ (by omega)

/-- Modelled from the spec: the diagonal radicand `Σ[j][j] − Σ_{k<j} L[j][k]²`
examined during construction of the Cholesky factor. -/
def chol_radicand (A : ℕ → ℕ → ℝ) (j : ℕ) : ℝ :=
  A j j - ∑ k ∈ Finset.range j, (cholE A j k) ^ 2

/-- Modelled from the spec: construction of an `n×n` `CorrelationMatrix`
succeeds iff no diagonal radicand is `≤ 0` within tolerance `1e−12`. -/
def chol_ok (A : ℕ → ℕ → ℝ) (n : ℕ) : Prop :=
  ∀ j < n, 1e-12 < chol_radicand A j

/-- Modelled from the spec: construction fails with `NonPositiveDefinite`
when some diagonal radicand is `≤ 0` within tolerance `1e−12`. -/
def chol_fails (A : ℕ → ℕ → ℝ) (n : ℕ) : Prop :=
  ∃ j < n, chol_radicand A j ≤ 1e-12

/-- Modelled from the spec: `correlate(z) = L·z`. -/
def correlate (A : ℕ → ℕ → ℝ) (n : ℕ) (z : ℕ → ℝ) (i : ℕ) : ℝ :=
  ∑ j ∈ Finset.range n, cholE A i j * z j

/-- Symmetry of an `n×n` matrix given as a function. -/
def mat_symm (A : ℕ → ℕ → ℝ) (n : ℕ) : Prop :=
  ∀ i < n, ∀ j < n, A i j = A j i

/-- Positive semi-definiteness of an `n×n` matrix given as a function:
the matrix is symmetric and every quadratic form value is nonnegative. -/
def mat_psd (A : ℕ → ℕ → ℝ) (n : ℕ) : Prop :=
  mat_symm A n ∧
    ∀ x : ℕ → ℝ, 0 ≤ ∑ i ∈ Finset.range n, ∑ j ∈ Finset.range n, x i * A i j * x j

/-! ## Yield curves and the market environment (marketEnvironment.hh)

Currencies are identified by natural-number ids.  Only the members that the
claims touch are embedded. -/

/-- `YieldCurve` of marketEnvironment.hh: tenor/zero-rate term structure plus
a fallback flat rate. -/
structure YieldCurve where
  tenors : List ℝ
  rates : List ℝ
  flat_rate : ℝ

/-- `YieldCurve::bump(delta)`: parallel shift of the flat rate and every
stored zero rate. -/
def YieldCurve.bump (c : YieldCurve) (delta : ℝ) : YieldCurve :=
  { c with flat_rate := c.flat_rate + delta, rates := c.rates.map (· + delta) }

/-- `MarketEnvironment`, restricted to the members `bump_rates` touches:
the currency-keyed yield-curve map and the default USD curve. -/
structure MarketEnvironment where
  yield_curves : List (ℕ × YieldCurve)
  default_yield_curve : YieldCurve

/-- `MarketEnvironment::bump_rates(delta)`: bumps every stored curve and the
default curve. -/
def bump_rates (e : MarketEnvironment) (delta : ℝ) : MarketEnvironment :=
  { yield_curves := e.yield_curves.map (fun q => (q.1, q.2.bump delta)),
    default_yield_curve := e.default_yield_curve.bump delta }

/-! ## Instruments, positions, portfolios, simulator state

Instruments are shared entities referenced by id from positions (the
`shared_ptr` graph of the source); their static fields live in a `World`,
their mutable fields (`current_price_`, `time_to_expiry_`) in `MState`.
The mt19937/normal-distribution pairs of the model and of the multi-asset
simulator are embedded as two streams of draws with cursors. -/

/-- Static data of an instrument: the variant tag and its immutable fields
(`strike_`, `underlying_`, `type_` for options; `duration_`, `coupon_rate_`
for bonds). -/
inductive InstKind where
  | stock : InstKind
  | option (und : ℕ) (strike : ℝ) (is_call : Bool) : InstKind
  | bond (duration coupon_rate : ℝ) : InstKind

/-- A `Position`: instrument reference and quantity (the `last_price_`
snapshot field only feeds P&L reporting, which no claim touches). -/
structure Pos where
  instId : ℕ
  qty : ℝ

/-- Static world: the instrument arena and the simulator's ordered portfolio
list (each portfolio is its ordered position list). -/
structure World where
  insts : ℕ → InstKind
  portfolios : List (List Pos)

/-- Mutable simulator state: instrument prices and times-to-expiry, the
model's RNG stream and cursor, the multi-asset simulator's RNG stream and
cursor, and the day counter. -/
structure MState where
  price : ℕ → ℝ
  tte : ℕ → ℝ
  zs : ℕ → ℝ
  zIdx : ℕ
  mzs : ℕ → ℝ
  mzIdx : ℕ
  day : ℕ

/-- `BlackScholesModel`'s parameters (`rate_`, `volatility_`). -/
structure BSModel where
  rate : ℝ
  vol : ℝ

/-- `BlackScholesModel::simulate_step(price, dt)` with the drawn normal `z`
made explicit: `S·exp((r − σ²/2)dt + σ√dt·Z)`. -/
def bs_step (m : BSModel) (p dt z : ℝ) : ℝ :=
  p * Real.exp ((m.rate - 0.5 * m.vol * m.vol) * dt + m.vol * Real.sqrt dt * z)

/-- The environment data the simulation code reads, with the curve/surface
lookups of marketEnvironment.hh abstracted into functions: `short_rate` is
`get_yield_curve().get_short_rate()`, `atm_vol t dt` is
`get_vol_surface(t).get_atm_vol(dt)`, `rate_at T` is `get_rate(T)`, and
`vol_at t K T` is `get_vol(t, K, T)`.  `corrSize` is the size of the stored
correlation matrix (`0` when none was set) and `chol` its cached Cholesky
factor, both modelled from the spec since the `CorrelationMatrix` class is
not under src/. -/
structure SimEnv where
  corrSize : ℕ
  chol : ℕ → ℕ → ℝ
  short_rate : ℝ
  atm_vol : ℕ → ℝ → ℝ
  rate_at : ℝ → ℝ
  vol_at : ℕ → ℝ → ℝ → ℝ

/-- `BlackScholesModel::simulate_step(price, dt, z, ticker, env)` (model.cpp):
rate from the curve's short end, ATM vol from the ticker's surface. -/
def env_step (env : SimEnv) (t : ℕ) (p dt z : ℝ) : ℝ :=
  p * Real.exp ((env.short_rate - 0.5 * env.atm_vol t dt * env.atm_vol t dt) * dt +
    env.atm_vol t dt * Real.sqrt dt * z)

/-! ### Monte Carlo simulation visitor (visitor.cpp) -/

/-- `MonteCarloSimulationVisitor::visit` on one instrument: a stock draws a
normal and takes a GBM step; an option decays its expiry then reprices from
its underlying's current price with the model's rate and vol; a bond draws a
normal to synthesize a rate increment. -/
def mc_visit (m : BSModel) (dt : ℝ) (w : World) (s : MState) (id : ℕ) : MState :=
  match w.insts id with
  | .stock =>
      let z := s.zs s.zIdx
      { s with price := Function.update s.price id (bs_step m (s.price id) dt z),
               zIdx := s.zIdx + 1 }
  | .option und strike c =>
      let tte' := max 0 (s.tte id - dt)
      let newP := price_option (s.price und) strike tte' m.rate m.vol c
      { s with tte := Function.update s.tte id tte',
               price := Function.update s.price id newP }
  | .bond dur coup =>
      let z := s.zs s.zIdx
      let rate_change := (bs_step m 1 dt z - 1) * 0.1
      let newP := s.price id * (1 - dur * rate_change) + coup * dt * 100
      { s with price := Function.update s.price id newP, zIdx := s.zIdx + 1 }

/-- `Portfolio::accept(MonteCarloSimulationVisitor)`: visit every position's
instrument in order. -/
def mc_portfolio (m : BSModel) (dt : ℝ) (w : World) (s : MState) (pf : List Pos) : MState :=
  pf.foldl (fun st p => mc_visit m dt w st p.instId) s

/-! ### Correlated daily simulation (marketSimulator.hh) -/

/-- `MarketSimulator::collect_stocks`, folded over one position: a stock
position inserts its ticker into the price map and into `stock_ptrs`; an
option position inserts its underlying's ticker into the price map only
(the source never fills `stock_ptrs` for underlyings); both skip tickers
already present.  The first component is the price-map key list, the second
the `stock_ptrs` key list. -/
def collect_stocks_pos (w : World) (acc : List ℕ × List ℕ) (p : Pos) : List ℕ × List ℕ :=
  match w.insts p.instId with
  | .stock =>
      if p.instId ∈ acc.1 then acc else (acc.1 ++ [p.instId], acc.2 ++ [p.instId])
  | .option und _ _ =>
      if und ∈ acc.1 then acc else (acc.1 ++ [und], acc.2)
  | .bond _ _ => acc

/-- `collect_stocks` over every portfolio (step 1 of `simulate_daily`). -/
def collect_stocks (w : World) : List ℕ × List ℕ :=
  w.portfolios.foldl (fun acc pf => pf.foldl (collect_stocks_pos w) acc) ([], [])

/-- Step 2 of `simulate_daily` on the correlated branch:
`MultiAssetSimulator::simulate_market_step` (model.cpp) followed by the
stock-price write-back loop.  Tickers are taken in ascending order
(`std::map` iteration); `n` independent normals are drawn from the
multi-asset simulator's generator and correlated through the cached Cholesky
factor when the matrix size matches; each ticker takes an environment-driven
GBM step; finally only tickers present in `stock_ptrs` get their new price
written back. -/
def stock_update_phase (env : SimEnv) (dt : ℝ) (seen ptrs : List ℕ) (s : MState) : MState :=
  let sorted := seen.mergeSort
  let n := sorted.length
  let z : ℕ → ℝ := fun j => s.mzs (s.mzIdx + j)
  let zc : ℕ → ℝ :=
    if env.corrSize = n then (fun i => ∑ j ∈ Finset.range n, env.chol i j * z j) else z
  let np : List (ℕ × ℝ) :=
    sorted.enum.map (fun q => (q.2, env_step env q.2 (s.price q.2) dt (zc q.1)))
  np.foldl
    (fun st q => if q.1 ∈ ptrs then { st with price := Function.update st.price q.1 q.2 } else st)
    { s with mzIdx := s.mzIdx + n }

/-- Body of `MarketSimulator::update_options` for one position: non-options
are skipped; an option decays its expiry, then——if still alive——reprices from
its underlying's current price (environment rate/vol when a correlation
matrix is present, otherwise the model's), else settles at intrinsic
value. -/
def update_option_visit (m : BSModel) (env : SimEnv) (w : World) (dt : ℝ)
    (s : MState) (id : ℕ) : MState :=
  match w.insts id with
  | .option und strike c =>
      let tte' := max 0 (s.tte id - dt)
      let s' := { s with tte := Function.update s.tte id tte' }
      if 0 < tte' then
        let S := s'.price und
        let newP :=
          if 0 < env.corrSize then
            price_option S strike tte' (env.rate_at tte') (env.vol_at und strike tte') c
          else
            price_option S strike tte' m.rate m.vol c
        { s' with price := Function.update s'.price id newP }
      else
        let S := s'.price und
        let intrinsic := if c then max 0 (S - strike) else max 0 (strike - S)
        { s' with price := Function.update s'.price id intrinsic }
  | _ => s

/-- `MarketSimulator::update_options(portfolio, dt)`. -/
def update_options (m : BSModel) (env : SimEnv) (w : World) (dt : ℝ)
    (s : MState) (pf : List Pos) : MState :=
  pf.foldl (fun st p => update_option_visit m env w dt st p.instId) s

/-- `MarketSimulator::simulate_daily()`: collect stock tickers; when some
exist and a correlation matrix is set, advance all stocks jointly and then
update every portfolio's options; otherwise fall back to the uncorrelated
Monte Carlo visitor over every instrument; finally increment the day
counter. -/
def simulate_daily (w : World) (m : BSModel) (env : SimEnv) (s : MState) : MState :=
  let dt : ℝ := 1 / 252
  let c := collect_stocks w
  if c.1 ≠ [] ∧ 0 < env.corrSize then
    let s2 := w.portfolios.foldl (update_options m env w dt) (stock_update_phase env dt c.1 c.2 s)
    { s2 with day := s2.day + 1 }
  else
    let s1 := w.portfolios.foldl (fun st pf => mc_portfolio m dt w st pf) s
    { s1 with day := s1.day + 1 }

/-- `MarketSimulator::simulate_daily_uncorrelated()`. -/
def simulate_daily_uncorrelated (w : World) (m : BSModel) (s : MState) : MState :=
  let dt : ℝ := 1 / 252
  let s1 := w.portfolios.foldl (fun st pf => mc_portfolio m dt w st pf) s
  { s1 with day := s1.day + 1 }

/-- `MarketSimulator::simulate_days(num_days)`: `simulate_daily` in a loop. -/
def simulate_days (w : World) (m : BSModel) (env : SimEnv) : ℕ → MState → MState
  | 0, s => s
  | n + 1, s => simulate_days w m env n (simulate_daily w m env s)

/-! ### Historical simulation visitor (visitor.hh / visitor.cpp) -/

/-- `HistoricalSimulationVisitor`'s fields: the historical return series and
the reduced day index. -/
structure HistVisitor where
  returns : List ℝ
  day_index : ℕ

/-- The `HistoricalSimulationVisitor` constructor computes
`day_index % historical_returns.size()`; on an empty series this is a modulus
by zero (undefined behaviour in the source), embedded as the error branch. -/
def mk_hist_visitor (returns : List ℝ) (day_index : ℕ) : Option HistVisitor :=
  if returns.isEmpty then none
  else some ⟨returns, day_index % returns.length⟩

/-- `HistoricalSimulationVisitor::visit` on one instrument: a stock applies
the day's return; an option decays its expiry and takes
`max(intrinsic, 0.99·price)`; a bond applies a scaled rate return plus
accrued coupon. -/
def hist_visit (v : HistVisitor) (w : World) (s : MState) (id : ℕ) : MState :=
  match w.insts id with
  | .stock =>
      let ret := v.returns.getD v.day_index 0
      { s with price := Function.update s.price id (s.price id * (1 + ret)) }
  | .option und strike c =>
      let tte' := max 0 (s.tte id - 1 / 252)
      let intrinsic := if c then max 0 (s.price und - strike) else max 0 (strike - s.price und)
      let time_value := s.price id * 0.99
      { s with tte := Function.update s.tte id tte',
               price := Function.update s.price id (max intrinsic time_value) }
  | .bond dur coup =>
      let ret := v.returns.getD v.day_index 0
      let rate_return := ret * 0.1
      let newP := s.price id * (1 - dur * rate_return) + coup * (1 / 252) * 100
      { s with price := Function.update s.price id newP }

/-- `MarketSimulator::simulate_daily_historical(returns)`: build the visitor
from the current day counter (failing on an empty series), apply it to every
portfolio, increment the day counter. -/
def simulate_daily_historical (w : World) (returns : List ℝ) (s : MState) : Option MState :=
  match mk_hist_visitor returns s.day with
  | none => none
  | some v =>
      let s1 := w.portfolios.foldl
        (fun st pf => pf.foldl (fun st2 p => hist_visit v w st2 p.instId) st) s
      some { s1 with day := s1.day + 1 }

/-! ### Portfolio valuation and VaR (portfolio.hh / visitor.cpp) -/

/-- `Position::get_market_value()`: quantity times instrument price. -/
def get_market_value (s : MState) (p : Pos) : ℝ := p.qty * s.price p.instId

/-- `Portfolio::get_total_value()`. -/
def get_total_value (s : MState) (pf : List Pos) : ℝ :=
  (pf.map (get_market_value s)).sum

/-- One historical scenario applied by `PortfolioSimulationVisitor::visit`:
the historical visitor over every position of the portfolio, in order. -/
def apply_hist_row (w : World) (v : HistVisitor) (pf : List Pos) (s : MState) : MState :=
  pf.foldl (fun st p => hist_visit v w st p.instId) s

/-- The restore loop of `VaRVisitor::calculate_var`: write each snapshotted
price back to its position's instrument. -/
def restore_prices (pf : List Pos) (orig : List ℝ) (s : MState) : MState :=
  (pf.zip orig).foldl
    (fun st q => { st with price := Function.update st.price q.1.instId q.2 }) s

/-- The scenario loop of `VaRVisitor::calculate_var`: for each historical
row, snapshot prices, apply the scenario, record the value change against the
initial value, restore prices.  An empty row makes the visitor construction
fail. -/
def var_loop (w : World) (pf : List Pos) (V0 : ℝ) :
    List (List ℝ) → MState → List ℝ → Option (MState × List ℝ)
  | [], s, acc => some (s, acc)
  | row :: rest, s, acc =>
      match mk_hist_visitor row 0 with
      | none => none
      | some v =>
          let orig := pf.map (fun p => s.price p.instId)
          let s1 := apply_hist_row w v pf s
          let d := get_total_value s1 pf - V0
          let s2 := restore_prices pf orig s1
          var_loop w pf V0 rest s2 (acc ++ [d])

/-- `VaRVisitor::calculate_var(portfolio)`: run every scenario, sort the P&L
distribution ascending, and return the negated quantile at index
`⌊(1 − confidence)·N⌋`; the source's out-of-bounds index (possible only for
an empty scenario list or a confidence outside (0,1]) is embedded as the
error branch. -/
def calculate_var (w : World) (pf : List Pos) (rows : List (List ℝ))
    (confidence : ℝ) (s : MState) : Option (ℝ × MState) :=
  let V0 := get_total_value s pf
  match var_loop w pf V0 rows s [] with
  | none => none
  | some (s1, pnls) =>
      let sorted := pnls.mergeSort
      let idx := ⌊(1 - confidence) * (pnls.length : ℝ)⌋₊
      if h : idx < sorted.length then some (-(sorted.get ⟨idx, h⟩), s1) else none

/-- The repriced value an option holds once `update_options` has processed
it, as a function of the state it ends in. -/
def reprice_now (m : BSModel) (env : SimEnv) (st : MState) (id und : ℕ)
    (strike : ℝ) (c : Bool) : ℝ :=
  if 0 < st.tte id then
    if 0 < env.corrSize then
      price_option (st.price und) strike (st.tte id)
        (env.rate_at (st.tte id)) (env.vol_at und strike (st.tte id)) c
    else
      price_option (st.price und) strike (st.tte id) m.rate m.vol c
  else if c then max 0 (st.price und - strike) else max 0 (strike - st.price und)

/-! ## Concrete configurations used by the claim instances -/

/-- The 2×2 correlation matrix `[[1, 0.5],[0.5, 1]]` of the spec's worked
example (entries outside the 2×2 block are never read). -/
def corr_example : ℕ → ℕ → ℝ := fun i j => if i = j then 1 else 0.5

/-- The shock vector `z = [1, 0]` of the spec's worked example. -/
def z_example : ℕ → ℝ := fun i => if i = 0 then 1 else 0

/-- The all-ones 2×2 matrix: a symmetric PSD correlation matrix that is
singular. -/
def ones_mat : ℕ → ℕ → ℝ := fun _ _ => 1

/-- The symmetric non-PSD matrix `[[1, 2],[2, 1]]`. -/
def nonpsd_mat : ℕ → ℕ → ℝ := fun i j => if i = j then 1 else 2

/-- A fresh simulator state: prices, expiries and RNG streams as given, both
RNG cursors at zero, and the day counter at its initializer `0`
(`simulation_day_count_ = 0` in marketSimulator.hh). -/
def mk_initial_state (price tte zs mzs : ℕ → ℝ) : MState :=
  { price := price, tte := tte, zs := zs, zIdx := 0, mzs := mzs, mzIdx := 0, day := 0 }

/-- An instrument arena with one stock (id 0) and one call on it (id 1,
strike 50); every other id is a stock. -/
def inst3 : ℕ → InstKind :=
  fun id => if id = 1 then InstKind.option 0 50 true else InstKind.stock

/-- World whose single portfolio holds the call before its underlying——the
order that breaks the fallback path's update ordering. -/
def w_fb : World := { insts := inst3, portfolios := [[⟨1, 1⟩, ⟨0, 1⟩]] }

/-- World whose single portfolio holds the stock and then the call. -/
def w_corr : World := { insts := inst3, portfolios := [[⟨0, 1⟩, ⟨1, 1⟩]] }

/-- Environment with no correlation matrix set (the fallback branch). -/
def env_fb : SimEnv :=
  { corrSize := 0, chol := fun _ _ => 0, short_rate := 0, atm_vol := fun _ _ => 0,
    rate_at := fun _ => 0, vol_at := fun _ _ _ => 0 }

/-- Environment with a 1×1 correlation matrix (the correlated branch); the
degenerate rate and vol values keep the witness computation closed-form. -/
def env_corr : SimEnv :=
  { corrSize := 1, chol := fun _ _ => 1, short_rate := 0, atm_vol := fun _ _ => 0,
    rate_at := fun _ => 0.05, vol_at := fun _ _ _ => 0.2 }

/-- The default Black–Scholes model parameters, `rate = 5%`, `vol = 20%`. -/
def m_bs : BSModel := { rate := 0.05, vol := 0.2 }

/-- State for the C3 configurations: the stock at 100, the option at
premium 10 with one day to expiry, all normal draws equal to zero. -/
def s_fb : MState :=
  mk_initial_state (fun id => if id = 0 then 100 else 10) (fun _ => 1 / 252)
    (fun _ => 0) (fun _ => 0)

/-- A world with no portfolios, used by trivial witnesses. -/
def w_triv : World := { insts := fun _ => InstKind.stock, portfolios := [] }

/-- An all-zero initial state, used by trivial witnesses. -/
def s_triv : MState := mk_initial_state (fun _ => 0) (fun _ => 0) (fun _ => 0) (fun _ => 0)

/-- The state `s_triv` reaches after one (trivial) historical day. -/
def hist_result_triv : MState := { s_triv with day := 1 }

/-- C6's worked example: an all-stock arena, 100 shares of stock 0. -/
def var_w : World := { insts := fun _ => InstKind.stock, portfolios := [[⟨0, 100⟩]] }

/-- C6's portfolio: 100 shares of instrument 0. -/
def var_pf : List Pos := [⟨0, 100⟩]

/-- C6's initial state: the stock priced at 100. -/
def var_s : MState :=
  mk_initial_state (fun _ => 100) (fun _ => 0) (fun _ => 0) (fun _ => 0)

/-- C6's five one-return historical scenarios. -/
def var_rows : List (List ℝ) := [[-0.03], [-0.01], [0], [0.01], [0.02]]

/-- C9's portfolio: the same call option held in two positions. -/
def dup_pf : List Pos := [⟨1, 1⟩, ⟨1, 1⟩]

/-- C9's world: the duplicated-option portfolio over the `inst3` arena. -/
def dup_w : World := { insts := inst3, portfolios := [dup_pf] }

/-- C9's initial state: underlying at 100, option at 10 with one year to
expiry. -/
def dup_s : MState :=
  mk_initial_state (fun id => if id = 0 then 100 else 10) (fun _ => 1)
    (fun _ => 0) (fun _ => 0)

/-- A portfolio holding the call exactly once (C9's witness). -/
def single_pf : List Pos := [⟨1, 1⟩]

/-- World for the single-option portfolio. -/
def w_single : World := { insts := inst3, portfolios := [single_pf] }

/-! ## Theorems -/

/-- The code's CDF and the spec's `Φ` are the same function. -/
theorem norm_cdf_eq_Phi_spec (x : ℝ) : norm_cdf x = Phi_spec x := by
  unfold norm_cdf Phi_spec
  rw [div_eq_mul_inv]

/-- The code's `d₁` (with `0.5*sigma*sigma`) equals the spec's `d₁` (with
`σ²/2`). -/
theorem d1_code_eq (S K T r sigma : ℝ) :
    (Real.log (S / K) + (r + 0.5 * sigma * sigma) * T) / (sigma * Real.sqrt T) =
      d1_spec S K T r sigma := by
  unfold d1_spec
  ring_nf

/-- C1.  `BlackScholesModel::price_option` returns the spec's closed-form
Black–Scholes value for `T > 0` (with `d₁`, `d₂` and `Φ` exactly as the spec
writes them), and the intrinsic value `max(0, ±(S−K))` for `T ≤ 0`. -/
theorem C1_price_option_closed_form :
    (∀ S K T r sigma : ℝ, 0 < S → 0 < K → 0 < sigma → 0 < T →
      price_option S K T r sigma true = call_price_spec S K T r sigma ∧
      price_option S K T r sigma false = put_price_spec S K T r sigma) ∧
    (∀ S K T r sigma : ℝ, T ≤ 0 →
      price_option S K T r sigma true = max 0 (S - K) ∧
      price_option S K T r sigma false = max 0 (K - S)) := by
  constructor
  · intro S K T r sigma _ _ _ hT
    have hT' : ¬ T ≤ 0 := not_le.mpr hT
    constructor
    · simp only [price_option, if_neg hT', if_true, d1_code_eq, norm_cdf_eq_Phi_spec,
        call_price_spec, d2_spec]
    · simp only [price_option, if_neg hT', Bool.false_eq_true, if_false, d1_code_eq,
        norm_cdf_eq_Phi_spec, put_price_spec, d2_spec]
  · intro S K T r sigma hT
    constructor <;> simp [price_option, if_pos hT]

/-- Witness for C1 at `S = K = 1`, `T = 1`, `r = 0`, `σ = 1`. -/
theorem C1_witness :
    (0:ℝ) < 1 ∧ price_option 1 1 1 0 1 true = call_price_spec 1 1 1 0 1 :=
  ⟨by norm_num,
    (C1_price_option_closed_form.1 1 1 1 0 1 (by norm_num) (by norm_num) (by norm_num)
      (by norm_num)).1⟩

/-- C4 counterexample.  At `S = −1 ≤ 0` the code returns the numeric value
`0` (and a numeric delta) instead of failing, whereas the validation the
claim describes reports `InvalidInput`. -/
theorem C4_counterexample :
    price_option (-1) 1 0 0 0 true = 0 ∧
    price_option_validated (-1) 1 0 0 0 true = none ∧
    (calculate_greeks (-1) 1 0 0 0 true).delta = 0 := by
  refine ⟨?_, ?_, ?_⟩
  · norm_num [price_option]
  · norm_num [price_option_validated]
  · norm_num [calculate_greeks]

/-- C4 as amended.  The code performs no input validation: for every input
with `S ≤ 0`, `K ≤ 0` or `σ < 0` both `price_option` and `calculate_greeks`
still return the numeric values given by the usual closed-form branches, and
no `InvalidInput` failure exists on this path. -/
theorem C4_no_validation :
    ∀ (S K T r sigma : ℝ) (c : Bool), S ≤ 0 ∨ K ≤ 0 ∨ sigma < 0 →
      price_option S K T r sigma c =
        (if T ≤ 0 then (if c then max 0 (S - K) else max 0 (K - S))
         else (if c then call_price_spec S K T r sigma else put_price_spec S K T r sigma)) ∧
      (calculate_greeks S K T r sigma c).delta =
        (if T ≤ 0 then
           (if c then (if S > K then (1:ℝ) else 0) else (if S < K then -1 else 0))
         else (if c then Phi_spec (d1_spec S K T r sigma)
               else Phi_spec (d1_spec S K T r sigma) - 1)) := by
  intro S K T r sigma c _
  by_cases hT : T ≤ 0
  · constructor
    · simp [price_option, if_pos hT]
    · simp [calculate_greeks, if_pos hT]
  · have hT' := hT
    constructor
    · cases c <;>
        simp only [price_option, if_neg hT', if_true, Bool.false_eq_true, if_false,
          d1_code_eq, norm_cdf_eq_Phi_spec, call_price_spec, put_price_spec, d2_spec]
    · cases c <;>
        simp only [calculate_greeks, if_neg hT', if_true, Bool.false_eq_true, if_false,
          d1_code_eq, norm_cdf_eq_Phi_spec]

/-- Witness for C4's amended claim at the invalid input `S = −1`. -/
theorem C4_witness :
    ((-1:ℝ) ≤ 0 ∨ (1:ℝ) ≤ 0 ∨ (0:ℝ) < 0) ∧
    price_option (-1) 1 0 0 0 true =
      (if (0:ℝ) ≤ 0 then (if true then max 0 ((-1:ℝ) - 1) else max 0 (1 - (-1:ℝ)))
       else (if true then call_price_spec (-1) 1 0 0 0 else put_price_spec (-1) 1 0 0 0)) :=
  ⟨Or.inl (by norm_num),
    (C4_no_validation (-1) 1 0 0 0 true (Or.inl (by norm_num))).1⟩

/-- C5 counterexample.  At `S = K` and `T = 0` both deltas are `0`, so the
call delta minus the put delta is `0`, not `1` (far outside the `1e−9`
tolerance). -/
theorem C5_counterexample :
    ¬ (|(calculate_greeks 100 100 0 0.05 0.2 true).delta -
          (calculate_greeks 100 100 0 0.05 0.2 false).delta - 1| ≤ 1e-9) := by
  norm_num [calculate_greeks]

/-- C5 as amended.  `Δ_call − Δ_put = 1` (within `1e−9`, in fact exactly)
for every input with `T > 0`, and for every input with `T ≤ 0` and `S ≠ K`;
at `T ≤ 0` and `S = K` both deltas vanish. -/
theorem C5_delta_parity :
    (∀ S K T r sigma : ℝ, 0 < T →
      |(calculate_greeks S K T r sigma true).delta -
        (calculate_greeks S K T r sigma false).delta - 1| ≤ 1e-9) ∧
    (∀ S K T r sigma : ℝ, T ≤ 0 → S ≠ K →
      |(calculate_greeks S K T r sigma true).delta -
        (calculate_greeks S K T r sigma false).delta - 1| ≤ 1e-9) := by
  constructor
  · intro S K T r sigma hT
    have hT' : ¬ T ≤ 0 := not_le.mpr hT
    simp only [calculate_greeks, if_neg hT', if_true, Bool.false_eq_true, if_false]
    have h : ∀ a : ℝ, a - (a - 1) - 1 = 0 := fun a => by ring
    rw [h]
    norm_num
  · intro S K T r sigma hT hSK
    rcases lt_or_gt_of_ne hSK with h | h
    · have h1 : ¬ S > K := by exact not_lt.mpr (le_of_lt h)
      simp only [calculate_greeks, if_pos hT, if_true, Bool.false_eq_true, if_false,
        if_neg h1, if_pos h]
      norm_num
    · have h1 : ¬ S < K := by exact not_lt.mpr (le_of_lt h)
      simp only [calculate_greeks, if_pos hT, if_true, Bool.false_eq_true, if_false,
        if_pos h, if_neg h1]
      norm_num

/-- Witness for C5 at `T = 1 > 0`. -/
theorem C5_witness :
    (0:ℝ) < 1 ∧
    |(calculate_greeks 1 1 1 0 1 true).delta -
      (calculate_greeks 1 1 1 0 1 false).delta - 1| ≤ 1e-9 :=
  ⟨by norm_num, C5_delta_parity.1 1 1 1 0 1 (by norm_num)⟩

/-- C7.  `bump_rates(+δ)` followed by `bump_rates(−δ)` restores every yield
curve——each stored zero rate and each flat rate, the default curve
included——to exactly its original value (the whole environment is restored). -/
theorem C7_bump_rates_roundtrip :
    ∀ (e : MarketEnvironment) (delta : ℝ), bump_rates (bump_rates e delta) (-delta) = e := by
  intro e delta
  have hcurve : ∀ c : YieldCurve, (c.bump delta).bump (-delta) = c := by
    intro c
    rcases c with ⟨t, rs, f⟩
    simp only [YieldCurve.bump, List.map_map]
    refine congrArg₂ (YieldCurve.mk t) ?_ (by ring)
    have : ((· + -delta) ∘ (· + delta)) = (id : ℝ → ℝ) := by
      funext x
      simp
    rw [this, List.map_id]
  rcases e with ⟨curves, dflt⟩
  simp only [bump_rates, List.map_map]
  refine congrArg₂ MarketEnvironment.mk ?_ (hcurve dflt)
  have : ((fun q : ℕ × YieldCurve => (q.1, q.2.bump (-delta))) ∘
      (fun q : ℕ × YieldCurve => (q.1, q.2.bump delta))) = id := by
    funext q
    simp [Function.comp, hcurve q.2]
  rw [this, List.map_id]

theorem cholE_eq_zero_of_lt (A : ℕ → ℕ → ℝ) {i j : ℕ} (h : i < j) : cholE A i j = 0 := by
  rw [cholE]
  simp [h]

theorem cholE_diag (A : ℕ → ℕ → ℝ) (j : ℕ) :
    cholE A j j = Real.sqrt (chol_radicand A j) := by
  rw [cholE]
  rw [if_neg (lt_irrefl j), if_pos rfl, chol_radicand,
    ← Finset.sum_attach (Finset.range j) (fun k => (cholE A j k) ^ 2)]

theorem cholE_below (A : ℕ → ℕ → ℝ) {i j : ℕ} (h : j < i) :
    cholE A i j =
      (A i j - ∑ k ∈ Finset.range j, cholE A i k * cholE A j k) / cholE A j j := by
  rw [cholE]
  rw [if_neg (by omega), if_neg (by omega),
    ← Finset.sum_attach (Finset.range j) (fun k => cholE A i k * cholE A j k)]

theorem cholE_diag_pos (A : ℕ → ℕ → ℝ) {n j : ℕ} (hok : chol_ok A n) (hj : j < n) :
    0 < cholE A j j := by
  rw [cholE_diag]
  exact Real.sqrt_pos.mpr (lt_trans (by norm_num) (hok j hj))

/-- Row `i`, column `j ≤ i` inner product of two rows of `L`, truncated at `j`. -/
theorem chol_reconstruct_le (A : ℕ → ℕ → ℝ) {n i j : ℕ} (hok : chol_ok A n)
    (hj : j < n) (hji : j ≤ i) :
    ∑ k ∈ Finset.range n, cholE A i k * cholE A j k = A i j := by
  have hsplit : ∑ k ∈ Finset.range n, cholE A i k * cholE A j k
      = ∑ k ∈ Finset.range (j + 1), cholE A i k * cholE A j k := by
    rcases Nat.exists_eq_add_of_le (Nat.succ_le_of_lt hj) with ⟨m, hm⟩
    rw [hm, Finset.sum_range_add]
    have hz : ∀ m' ∈ Finset.range m, cholE A i (j + 1 + m') * cholE A j (j + 1 + m') = 0 := by
      intro m' _
      rw [cholE_eq_zero_of_lt A (by omega : j < j + 1 + m'), mul_zero]
    rw [Finset.sum_congr rfl hz]
    simp
  rw [hsplit, Finset.sum_range_succ]
  rcases Nat.eq_or_lt_of_le hji with heq | hlt
  · subst heq
    rw [cholE_diag]
    have hrad : 0 ≤ chol_radicand A j :=
      le_of_lt (lt_trans (by norm_num) (hok j hj))
    have : Real.sqrt (chol_radicand A j) * Real.sqrt (chol_radicand A j)
        = chol_radicand A j := Real.mul_self_sqrt hrad
    rw [this, chol_radicand]
    have : ∀ k ∈ Finset.range j, cholE A j k * cholE A j k = (cholE A j k) ^ 2 := by
      intro k _; ring
    rw [Finset.sum_congr rfl this]
    ring
  · rw [cholE_below A hlt]
    have hz : cholE A j j ≠ 0 := ne_of_gt (cholE_diag_pos A hok hj)
    field_simp

/-- Reconstruction: when construction succeeds on a symmetric matrix, the
factor satisfies `L·Lᵀ = Σ` exactly (on the `n×n` block). -/
theorem chol_reconstruct (A : ℕ → ℕ → ℝ) {n : ℕ} (hsym : mat_symm A n)
    (hok : chol_ok A n) :
    ∀ i < n, ∀ j < n, ∑ k ∈ Finset.range n, cholE A i k * cholE A j k = A i j := by
  intro i hi j hj
  rcases le_total j i with hji | hij
  · exact chol_reconstruct_le A hok hj hji
  · have := chol_reconstruct_le A hok hi hij
    calc ∑ k ∈ Finset.range n, cholE A i k * cholE A j k
        = ∑ k ∈ Finset.range n, cholE A j k * cholE A i k := by
          exact Finset.sum_congr rfl (fun k _ => mul_comm _ _)
      _ = A j i := this
      _ = A i j := (hsym i hi j hj).symm

/-- Whenever construction succeeds on a symmetric matrix, that matrix is
positive semi-definite; hence a symmetric non-PSD input always fails. -/
theorem chol_ok_psd (A : ℕ → ℕ → ℝ) {n : ℕ} (hsym : mat_symm A n)
    (hok : chol_ok A n) : mat_psd A n := by
  refine ⟨hsym, fun x => ?_⟩
  have hrw : ∀ i ∈ Finset.range n, ∀ j ∈ Finset.range n,
      x i * A i j * x j =
        ∑ k ∈ Finset.range n, (x i * cholE A i k) * (x j * cholE A j k) := by
    intro i hi j hj
    rw [← chol_reconstruct A hsym hok i (Finset.mem_range.mp hi) j (Finset.mem_range.mp hj),
      Finset.mul_sum, Finset.sum_mul]
    exact Finset.sum_congr rfl (fun k _ => by ring)
  have hsq : ∀ k : ℕ,
      ∑ i ∈ Finset.range n, ∑ j ∈ Finset.range n,
          (x i * cholE A i k) * (x j * cholE A j k)
        = (∑ i ∈ Finset.range n, x i * cholE A i k) ^ 2 := by
    intro k
    rw [sq, Finset.sum_mul]
    exact Finset.sum_congr rfl (fun i _ => by rw [Finset.mul_sum])
  have hkey : ∑ i ∈ Finset.range n, ∑ j ∈ Finset.range n, x i * A i j * x j
      = ∑ k ∈ Finset.range n, (∑ i ∈ Finset.range n, x i * cholE A i k) ^ 2 := by
    calc ∑ i ∈ Finset.range n, ∑ j ∈ Finset.range n, x i * A i j * x j
        = ∑ i ∈ Finset.range n, ∑ j ∈ Finset.range n, ∑ k ∈ Finset.range n,
            (x i * cholE A i k) * (x j * cholE A j k) :=
          Finset.sum_congr rfl (fun i hi => Finset.sum_congr rfl (fun j hj => hrw i hi j hj))
      _ = ∑ i ∈ Finset.range n, ∑ k ∈ Finset.range n, ∑ j ∈ Finset.range n,
            (x i * cholE A i k) * (x j * cholE A j k) :=
          Finset.sum_congr rfl (fun i _ => Finset.sum_comm)
      _ = ∑ k ∈ Finset.range n, ∑ i ∈ Finset.range n, ∑ j ∈ Finset.range n,
            (x i * cholE A i k) * (x j * cholE A j k) := Finset.sum_comm
      _ = ∑ k ∈ Finset.range n, (∑ i ∈ Finset.range n, x i * cholE A i k) ^ 2 :=
          Finset.sum_congr rfl (fun k _ => hsq k)
  rw [hkey]
  exact Finset.sum_nonneg (fun k _ => sq_nonneg _)

theorem corr_example_00 : cholE corr_example 0 0 = 1 := by
  rw [cholE_diag]
  simp [chol_radicand, corr_example]

theorem corr_example_10 : cholE corr_example 1 0 = 0.5 := by
  rw [cholE_below corr_example (by norm_num : (0:ℕ) < 1)]
  simp [corr_example, corr_example_00]

theorem corr_example_radicand_1 : chol_radicand corr_example 1 = 0.75 := by
  rw [chol_radicand]
  rw [Finset.sum_range_one, corr_example_10]
  norm_num [corr_example]

theorem corr_example_11 : cholE corr_example 1 1 = Real.sqrt 0.75 := by
  rw [cholE_diag, corr_example_radicand_1]

theorem chol_ok_corr_example : chol_ok corr_example 2 := by
  intro j hj
  interval_cases j
  · rw [chol_radicand]
    simp [corr_example]
    norm_num
  · rw [corr_example_radicand_1]
    norm_num

theorem mat_symm_corr_example : mat_symm corr_example 2 := by
  intro i _ j _
  by_cases h : i = j
  · simp [corr_example, h]
  · have h' : ¬ j = i := fun hji => h hji.symm
    simp [corr_example, h, h']

/-- C2 counterexample.  The all-ones 2×2 matrix is a symmetric PSD
correlation matrix (diagonal 1, entries in `[−1,1]`), yet its second diagonal
radicand is `0 ≤ 1e−12`, so construction fails with `NonPositiveDefinite`
instead of producing a factor. -/
theorem C2_counterexample_psd_fails : mat_psd ones_mat 2 ∧ chol_fails ones_mat 2 := by
  constructor
  · refine ⟨fun i _ j _ => rfl, fun x => ?_⟩
    have : ∑ i ∈ Finset.range 2, ∑ j ∈ Finset.range 2, x i * ones_mat i j * x j
        = (x 0 + x 1) ^ 2 := by
      simp [Finset.sum_range_succ, ones_mat]
      ring
    rw [this]
    exact sq_nonneg _
  · refine ⟨1, by norm_num, ?_⟩
    have h00 : cholE ones_mat 0 0 = 1 := by
      rw [cholE_diag]
      simp [chol_radicand, ones_mat]
    have h10 : cholE ones_mat 1 0 = 1 := by
      rw [cholE_below ones_mat (by norm_num : (0:ℕ) < 1)]
      simp [ones_mat, h00]
    rw [chol_radicand, Finset.sum_range_one, h10]
    norm_num [ones_mat]

/-- C2 as amended (the `CorrelationMatrix` class is modelled from the spec).
Whenever construction succeeds on a symmetric matrix——every diagonal radicand
exceeds the `1e−12` tolerance——the cached factor reconstructs `Σ` within
`1e−10` (in fact exactly); equivalently any symmetric non-PSD input fails
with `NonPositiveDefinite`; and on the spec's worked 2×2 example the factor
is `[[1,0],[0.5,√0.75]]` with `correlate([1,0]) = [1,0.5]`, while the
symmetric non-PSD `[[1,2],[2,1]]` fails.  (A singular PSD input, by the
counterexample, also fails, which is what the claim's `for every PSD`
overlooks.) -/
theorem C2_cholesky :
    (∀ (A : ℕ → ℕ → ℝ) (n : ℕ), mat_symm A n → chol_ok A n →
      ∀ i < n, ∀ j < n,
        |(∑ k ∈ Finset.range n, cholE A i k * cholE A j k) - A i j| ≤ 1e-10) ∧
    (∀ (A : ℕ → ℕ → ℝ) (n : ℕ), mat_symm A n → ¬ mat_psd A n → chol_fails A n) ∧
    (cholE corr_example 0 0 = 1 ∧ cholE corr_example 0 1 = 0 ∧
      cholE corr_example 1 0 = 0.5 ∧ cholE corr_example 1 1 = Real.sqrt 0.75 ∧
      correlate corr_example 2 z_example 0 = 1 ∧
      correlate corr_example 2 z_example 1 = 0.5 ∧
      chol_fails nonpsd_mat 2 ∧ ¬ mat_psd nonpsd_mat 2) := by
  refine ⟨?_, ?_, ?_⟩
  · intro A n hsym hok i hi j hj
    rw [chol_reconstruct A hsym hok i hi j hj]
    norm_num
  · intro A n hsym hpsd
    by_contra hfail
    apply hpsd
    apply chol_ok_psd A hsym
    intro j hj
    by_contra hrad
    exact hfail ⟨j, hj, le_of_not_lt hrad⟩
  · refine ⟨corr_example_00, cholE_eq_zero_of_lt _ (by norm_num), corr_example_10,
      corr_example_11, ?_, ?_, ?_, ?_⟩
    · rw [correlate]
      rw [Finset.sum_range_succ, Finset.sum_range_one]
      rw [corr_example_00, cholE_eq_zero_of_lt corr_example (by norm_num : (0:ℕ) < 1)]
      simp [z_example]
    · rw [correlate]
      rw [Finset.sum_range_succ, Finset.sum_range_one]
      rw [corr_example_10, corr_example_11]
      simp [z_example]
    · refine ⟨1, by norm_num, ?_⟩
      have h00 : cholE nonpsd_mat 0 0 = 1 := by
        rw [cholE_diag]
        simp [chol_radicand, nonpsd_mat]
      have h10 : cholE nonpsd_mat 1 0 = 2 := by
        rw [cholE_below nonpsd_mat (by norm_num : (0:ℕ) < 1)]
        simp [nonpsd_mat, h00]
      rw [chol_radicand, Finset.sum_range_one, h10]
      norm_num [nonpsd_mat]
    · rintro ⟨-, hq⟩
      have := hq (fun i => if i = 0 then 1 else -1)
      rw [show ∑ i ∈ Finset.range 2, ∑ j ∈ Finset.range 2,
          (fun i => if i = 0 then (1:ℝ) else -1) i * nonpsd_mat i j *
            (fun i => if i = 0 then (1:ℝ) else -1) j = -2 by
        simp [Finset.sum_range_succ, nonpsd_mat]
        norm_num] at this
      norm_num at this

/-- Witness for C2 at the spec's worked 2×2 example. -/
theorem C2_witness :
    mat_symm corr_example 2 ∧ chol_ok corr_example 2 ∧
    |(∑ k ∈ Finset.range 2, cholE corr_example 1 k * cholE corr_example 0 k) -
        corr_example 1 0| ≤ 1e-10 :=
  ⟨mat_symm_corr_example, chol_ok_corr_example,
    C2_cholesky.1 corr_example 2 mat_symm_corr_example chol_ok_corr_example 1 (by norm_num)
      0 (by norm_num)⟩

/-! ### Day-counter lemmas (claim C8) -/

theorem foldl_day_eq {α : Type} (f : MState → α → MState)
    (h : ∀ st a, (f st a).day = st.day) :
    ∀ (l : List α) (s : MState), (l.foldl f s).day = s.day := by
  intro l
  induction l with
  | nil => intro s; rfl
  | cons a t ih =>
    intro s
    rw [List.foldl_cons, ih, h]

theorem mc_visit_day (m : BSModel) (dt : ℝ) (w : World) (s : MState) (id : ℕ) :
    (mc_visit m dt w s id).day = s.day := by
  cases hw : w.insts id <;> simp [mc_visit, hw]

theorem mc_portfolio_day (m : BSModel) (dt : ℝ) (w : World) (s : MState) (pf : List Pos) :
    (mc_portfolio m dt w s pf).day = s.day := by
  unfold mc_portfolio
  exact foldl_day_eq _ (fun st (p : Pos) => mc_visit_day m dt w st p.instId) pf s

theorem update_option_visit_day (m : BSModel) (env : SimEnv) (w : World) (dt : ℝ)
    (s : MState) (id : ℕ) : (update_option_visit m env w dt s id).day = s.day := by
  cases hw : w.insts id <;> simp [update_option_visit, hw]
  split_ifs <;> rfl

theorem update_options_day (m : BSModel) (env : SimEnv) (w : World) (dt : ℝ)
    (s : MState) (pf : List Pos) : (update_options m env w dt s pf).day = s.day := by
  unfold update_options
  exact foldl_day_eq _ (fun st (p : Pos) => update_option_visit_day m env w dt st p.instId) pf s

theorem stock_update_phase_day (env : SimEnv) (dt : ℝ) (seen ptrs : List ℕ) (s : MState) :
    (stock_update_phase env dt seen ptrs s).day = s.day := by
  unfold stock_update_phase
  rw [foldl_day_eq _ (fun st q => by split_ifs <;> rfl)]

theorem hist_visit_day (v : HistVisitor) (w : World) (s : MState) (id : ℕ) :
    (hist_visit v w s id).day = s.day := by
  cases hw : w.insts id <;> simp [hist_visit, hw]

theorem simulate_daily_day (w : World) (m : BSModel) (env : SimEnv) (s : MState) :
    (simulate_daily w m env s).day = s.day + 1 := by
  simp only [simulate_daily]
  split_ifs
  · have h1 := foldl_day_eq (update_options m env w (1 / 252))
      (fun st (pf : List Pos) => update_options_day m env w _ st pf) w.portfolios
      (stock_update_phase env (1 / 252) (collect_stocks w).1 (collect_stocks w).2 s)
    simp only [h1, stock_update_phase_day]
  · have h1 := foldl_day_eq (fun st pf => mc_portfolio m (1 / 252) w st pf)
      (fun st (pf : List Pos) => mc_portfolio_day m _ w st pf) w.portfolios s
    simp only [h1]

/-- C8.  The simulator's day counter starts at `0`; `simulate_daily`,
`simulate_daily_uncorrelated` and every completing `simulate_daily_historical`
increment it by exactly one; `simulate_days(N)` increments it by exactly `N`
(so it is monotonically non-decreasing). -/
theorem C8_day_counter :
    (∀ price tte zs mzs : ℕ → ℝ, (mk_initial_state price tte zs mzs).day = 0) ∧
    (∀ (w : World) (m : BSModel) (env : SimEnv) (s : MState),
      (simulate_daily w m env s).day = s.day + 1) ∧
    (∀ (w : World) (m : BSModel) (s : MState),
      (simulate_daily_uncorrelated w m s).day = s.day + 1) ∧
    (∀ (w : World) (returns : List ℝ) (s s' : MState),
      simulate_daily_historical w returns s = some s' → s'.day = s.day + 1) ∧
    (∀ (w : World) (m : BSModel) (env : SimEnv) (n : ℕ) (s : MState),
      (simulate_days w m env n s).day = s.day + n) := by
  refine ⟨fun _ _ _ _ => rfl, simulate_daily_day, ?_, ?_, ?_⟩
  · intro w m s
    unfold simulate_daily_uncorrelated
    simp only
    rw [foldl_day_eq _ (fun st pf => mc_portfolio_day m _ w st pf)]
  · intro w returns s s' h
    unfold simulate_daily_historical at h
    cases hv : mk_hist_visitor returns s.day with
    | none => rw [hv] at h; cases h
    | some v =>
      rw [hv] at h
      simp only [Option.some.injEq] at h
      rw [← h]
      have h1 := foldl_day_eq
        (fun st (pf : List Pos) => pf.foldl (fun st2 p => hist_visit v w st2 p.instId) st)
        (fun st (pf : List Pos) =>
          foldl_day_eq _ (fun st2 (p : Pos) => hist_visit_day v w st2 p.instId) pf st)
        w.portfolios s
      simp only [h1]
  · intro w m env n
    induction n with
    | zero => intro s; rfl
    | succ k ih =>
      intro s
      show (simulate_days w m env k (simulate_daily w m env s)).day = s.day + (k + 1)
      rw [ih, simulate_daily_day]
      omega

/-- Witness for C8: one historical day on a portfolio-free simulator. -/
theorem C8_witness :
    simulate_daily_historical w_triv [1] s_triv = some hist_result_triv ∧
    hist_result_triv.day = s_triv.day + 1 := by
  have h : simulate_daily_historical w_triv [1] s_triv = some hist_result_triv := by
    simp [simulate_daily_historical, mk_hist_visitor, w_triv, hist_result_triv, s_triv,
      mk_initial_state]
  exact ⟨h, C8_day_counter.2.2.2.1 w_triv [1] s_triv hist_result_triv h⟩

/-! ### Historical-visitor domain lemmas (claim C10) -/

theorem var_loop_none_of_mem_nil (w : World) (pf : List Pos) (V0 : ℝ) :
    ∀ (rows : List (List ℝ)) (s : MState) (acc : List ℝ),
      ([] : List ℝ) ∈ rows → var_loop w pf V0 rows s acc = none := by
  intro rows
  induction rows with
  | nil =>
    intro s acc h
    cases h
  | cons row rest ih =>
    intro s acc h
    rcases List.mem_cons.mp h with h1 | h2
    · rw [← h1]
      simp [var_loop, mk_hist_visitor]
    · unfold var_loop
      cases hv : mk_hist_visitor row 0 with
      | none => rfl
      | some v => exact ih _ _ h2

/-- C10.  The historical visitor is well-defined exactly on non-empty return
series: construction stores `day_index % N < N`, so the series accesses in
`visit(Stock&)` and `visit(Bond&)` are in bounds, while an empty series (an
empty `simulate_daily_historical` argument or an empty VaR scenario row)
reaches the modulus-by-zero error branch of the embedding. -/
theorem C10_hist_domain :
    (∀ (returns : List ℝ) (day : ℕ), returns ≠ [] →
      ∃ v, mk_hist_visitor returns day = some v ∧ v.returns = returns ∧
        ∃ h : v.day_index < v.returns.length,
          v.returns.getD v.day_index 0 = v.returns.get ⟨v.day_index, h⟩) ∧
    (∀ day : ℕ, mk_hist_visitor [] day = none) ∧
    (∀ (w : World) (s : MState), simulate_daily_historical w [] s = none) ∧
    (∀ (w : World) (pf : List Pos) (rows : List (List ℝ)) (conf : ℝ) (s : MState),
      ([] : List ℝ) ∈ rows → calculate_var w pf rows conf s = none) := by
  refine ⟨?_, fun day => rfl, fun w s => rfl, ?_⟩
  · intro returns day h
    have hne : ¬ returns.isEmpty := by
      simp [List.isEmpty_iff, h]
    refine ⟨⟨returns, day % returns.length⟩, by simp [mk_hist_visitor, hne], rfl, ?_⟩
    have hlen : 0 < returns.length := List.length_pos.mpr h
    refine ⟨Nat.mod_lt day hlen, ?_⟩
    exact List.getD_eq_get _ _ _
  · intro w pf rows conf s h
    simp only [calculate_var]
    rw [var_loop_none_of_mem_nil w pf _ rows s [] h]

/-- Witness for C10 on the series `[0.1]` at day 5. -/
theorem C10_witness :
    ([(0.1:ℝ)] ≠ []) ∧
    (∃ v, mk_hist_visitor [(0.1:ℝ)] 5 = some v ∧ v.returns = [(0.1:ℝ)] ∧
      ∃ h : v.day_index < v.returns.length,
        v.returns.getD v.day_index 0 = v.returns.get ⟨v.day_index, h⟩) :=
  ⟨by simp, C10_hist_domain.1 [(0.1:ℝ)] 5 (by simp)⟩

/-! ### Frame and congruence lemmas for the historical visitor and the VaR
loop (claims C6 and C9) -/

theorem hist_visit_price_other (v : HistVisitor) (w : World) (s : MState) {j id : ℕ}
    (h : id ≠ j) : (hist_visit v w s j).price id = s.price id := by
  cases hw : w.insts j <;> simp [hist_visit, hw, Function.update_noteq h]

theorem hist_visit_tte_other (v : HistVisitor) (w : World) (s : MState) {j id : ℕ}
    (h : id ≠ j) : (hist_visit v w s j).tte id = s.tte id := by
  cases hw : w.insts j <;> simp [hist_visit, hw, Function.update_noteq h]

theorem hist_visit_tte_option (v : HistVisitor) (w : World) (s : MState) {j : ℕ}
    {und : ℕ} {strike : ℝ} {c : Bool} (hw : w.insts j = InstKind.option und strike c) :
    (hist_visit v w s j).tte j = max 0 (s.tte j - 1 / 252) := by
  simp [hist_visit, hw]

theorem hist_visit_price_congr (v : HistVisitor) (w : World) (j : ℕ) (s t : MState)
    (h : s.price = t.price) : (hist_visit v w s j).price = (hist_visit v w t j).price := by
  cases hw : w.insts j <;> simp [hist_visit, hw, h]

theorem apply_hist_row_price_frame (w : World) (v : HistVisitor) :
    ∀ (pf : List Pos) (s : MState) (id : ℕ), id ∉ pf.map (·.instId) →
      (apply_hist_row w v pf s).price id = s.price id := by
  intro pf
  induction pf with
  | nil => intro s id _; rfl
  | cons p rest ih =>
    intro s id h
    simp only [List.map_cons, List.mem_cons, not_or] at h
    show (apply_hist_row w v rest (hist_visit v w s p.instId)).price id = s.price id
    rw [ih _ _ (h.2), hist_visit_price_other v w s h.1]

theorem apply_hist_row_tte_frame (w : World) (v : HistVisitor) :
    ∀ (pf : List Pos) (s : MState) (id : ℕ), id ∉ pf.map (·.instId) →
      (apply_hist_row w v pf s).tte id = s.tte id := by
  intro pf
  induction pf with
  | nil => intro s id _; rfl
  | cons p rest ih =>
    intro s id h
    simp only [List.map_cons, List.mem_cons, not_or] at h
    show (apply_hist_row w v rest (hist_visit v w s p.instId)).tte id = s.tte id
    rw [ih _ _ (h.2), hist_visit_tte_other v w s h.1]

theorem apply_hist_row_price_congr (w : World) (v : HistVisitor) :
    ∀ (pf : List Pos) (s t : MState), s.price = t.price →
      (apply_hist_row w v pf s).price = (apply_hist_row w v pf t).price := by
  intro pf
  induction pf with
  | nil => intro s t h; exact h
  | cons p rest ih =>
    intro s t h
    exact ih _ _ (hist_visit_price_congr v w p.instId s t h)

theorem apply_hist_row_tte_option (w : World) (v : HistVisitor) :
    ∀ (pf : List Pos) (s : MState) (id : ℕ) (und : ℕ) (strike : ℝ) (c : Bool),
      (pf.map (·.instId)).Nodup → w.insts id = InstKind.option und strike c →
      id ∈ pf.map (·.instId) →
      (apply_hist_row w v pf s).tte id = max 0 (s.tte id - 1 / 252) := by
  intro pf
  induction pf with
  | nil =>
    intro s id und strike c _ _ hmem
    cases hmem
  | cons p rest ih =>
    intro s id und strike c hnd hw hmem
    simp only [List.map_cons, List.nodup_cons] at hnd
    rcases List.mem_cons.mp hmem with h1 | h2
    · have h1' : id = p.instId := h1
      subst h1'
      show (apply_hist_row w v rest (hist_visit v w s p.instId)).tte p.instId = _
      rw [apply_hist_row_tte_frame w v rest _ _ hnd.1, hist_visit_tte_option v w s hw]
    · have hne : id ≠ p.instId := fun he => hnd.1 (he ▸ h2)
      show (apply_hist_row w v rest (hist_visit v w s p.instId)).tte id = _
      rw [ih _ _ und strike c hnd.2 hw h2, hist_visit_tte_other v w s hne]

theorem get_total_value_congr (s t : MState) (pf : List Pos) (h : s.price = t.price) :
    get_total_value s pf = get_total_value t pf := by
  unfold get_total_value
  exact congrArg List.sum (List.map_congr_left (fun p _ => by
    unfold get_market_value
    rw [h]))

theorem restore_prices_tte :
    ∀ (pf : List Pos) (orig : List ℝ) (s : MState),
      (restore_prices pf orig s).tte = s.tte := by
  intro pf orig s
  unfold restore_prices
  generalize pf.zip orig = l
  induction l generalizing s with
  | nil => rfl
  | cons q t ih => exact ih _

theorem restore_prices_price :
    ∀ (pf : List Pos) (s0 s1 : MState) (id : ℕ),
      (restore_prices pf (pf.map fun p => s0.price p.instId) s1).price id =
        if id ∈ pf.map (·.instId) then s0.price id else s1.price id := by
  intro pf
  induction pf with
  | nil =>
    intro s0 s1 id
    simp [restore_prices]
  | cons p rest ih =>
    intro s0 s1 id
    have hstep : restore_prices (p :: rest) ((p :: rest).map fun q => s0.price q.instId) s1
        = restore_prices rest (rest.map fun q => s0.price q.instId)
            { s1 with price := Function.update s1.price p.instId (s0.price p.instId) } := by
      simp [restore_prices]
    rw [hstep, ih]
    by_cases hmem : id ∈ rest.map (·.instId)
    · simp [hmem]
    · by_cases hid : id = p.instId
      · subst hid
        simp [hmem, Function.update_same]
      · simp [hmem, hid, Function.update_noteq hid]

/-- One scenario of the VaR loop restores every price exactly. -/
theorem var_roundtrip_price (w : World) (v : HistVisitor) (pf : List Pos) (s : MState) :
    (restore_prices pf (pf.map fun p => s.price p.instId)
        (apply_hist_row w v pf s)).price = s.price := by
  funext id
  rw [restore_prices_price]
  by_cases h : id ∈ pf.map (·.instId)
  · simp [h]
  · simp [h, apply_hist_row_price_frame w v pf s id h]

theorem max_zero_sub_collapse (x y : ℝ) (hy : 0 ≤ y) :
    max 0 (max 0 x - y) = max 0 (x - y) := by
  rcases le_total x 0 with h | h
  · rw [max_eq_left h, max_eq_left (by linarith : (0:ℝ) - y ≤ 0),
      max_eq_left (by linarith : x - y ≤ 0)]
  · rw [max_eq_right h]

/-- Post-state of a completed VaR loop: all prices restored; expiries of
instruments outside the portfolio untouched; for a portfolio whose positions
reference distinct instruments, every held option's expiry decayed by
`1/252` per scenario, floored at zero each step. -/
theorem var_loop_post (w : World) (pf : List Pos) (V0 : ℝ) :
    ∀ (rows : List (List ℝ)) (s : MState) (acc : List ℝ) (sfin : MState) (pnls : List ℝ),
      var_loop w pf V0 rows s acc = some (sfin, pnls) →
      sfin.price = s.price ∧
      (∀ id, id ∉ pf.map (·.instId) → sfin.tte id = s.tte id) ∧
      ((pf.map (·.instId)).Nodup → rows ≠ [] →
        ∀ id und strike c, w.insts id = InstKind.option und strike c →
          id ∈ pf.map (·.instId) →
          sfin.tte id = max 0 (s.tte id - (rows.length : ℝ) * (1 / 252))) := by
  intro rows
  induction rows with
  | nil =>
    intro s acc sfin pnls h
    simp only [var_loop, Option.some.injEq, Prod.mk.injEq] at h
    rw [← h.1]
    exact ⟨rfl, fun _ _ => rfl, fun _ hne => absurd rfl hne⟩
  | cons row rest ih =>
    intro s acc sfin pnls h
    unfold var_loop at h
    cases hv : mk_hist_visitor row 0 with
    | none => rw [hv] at h; cases h
    | some v =>
      rw [hv] at h
      simp only at h
      set s1 := apply_hist_row w v pf s with hs1
      set s2 := restore_prices pf (pf.map fun p => s.price p.instId) s1 with hs2
      have hr := ih s2 _ sfin pnls h
      have hprice2 : s2.price = s.price := var_roundtrip_price w v pf s
      have htte2 : s2.tte = s1.tte := restore_prices_tte pf _ s1
      refine ⟨hr.1.trans hprice2, ?_, ?_⟩
      · intro id hid
        rw [hr.2.1 id hid, htte2, apply_hist_row_tte_frame w v pf s id hid]
      · intro hnd _ id und strike c hw hmem
        have h1 : s2.tte id = max 0 (s.tte id - 1 / 252) := by
          rw [htte2, hs1, apply_hist_row_tte_option w v pf s id und strike c hnd hw hmem]
        rcases List.eq_nil_or_concat rest with hrest | _
        · subst hrest
          simp only [var_loop, Option.some.injEq, Prod.mk.injEq] at h
          rw [← h.1, h1]
          norm_num
        · have hrne : rest ≠ [] := by
            rintro rfl
            simp_all
          rw [hr.2.2 hnd hrne id und strike c hw hmem, h1,
            max_zero_sub_collapse _ _ (by positivity)]
          have : (rest.length : ℝ) + 1 = ((row :: rest).length : ℝ) := by
            push_cast [List.length_cons]
            ring
          rw [sub_sub, show (1:ℝ)/252 + (rest.length : ℝ) * (1/252)
            = ((row :: rest).length : ℝ) * (1/252) by
              push_cast [List.length_cons]
              ring]

/-- The VaR loop on non-empty scenario rows completes, and its P&L list is
the per-scenario value change of the original state: price restoration makes
every scenario read the same original prices, and the historical price
updates never read an expiry, so the decayed expiries leave the values
untouched. -/
theorem var_loop_spec (w : World) (pf : List Pos) (V0 : ℝ) :
    ∀ (rows : List (List ℝ)) (s0 s : MState) (acc : List ℝ),
      (∀ row ∈ rows, row ≠ []) → s.price = s0.price →
      ∃ sfin, var_loop w pf V0 rows s acc =
        some (sfin, acc ++ rows.map (fun row =>
          get_total_value (apply_hist_row w ⟨row, 0⟩ pf s0) pf - V0)) := by
  intro rows
  induction rows with
  | nil =>
    intro s0 s acc _ _
    exact ⟨s, by simp [var_loop]⟩
  | cons row rest ih =>
    intro s0 s acc hrows hp
    have hrow : row ≠ [] := hrows row (List.mem_cons_self row rest)
    have hv : mk_hist_visitor row 0 = some ⟨row, 0⟩ := by
      simp [mk_hist_visitor, List.isEmpty_iff, hrow]
    set s1 := apply_hist_row w ⟨row, 0⟩ pf s with hs1
    set s2 := restore_prices pf (pf.map fun p => s.price p.instId) s1 with hs2
    have hp2 : s2.price = s0.price := (var_roundtrip_price w ⟨row, 0⟩ pf s).trans hp
    have hd : get_total_value s1 pf - V0 =
        get_total_value (apply_hist_row w ⟨row, 0⟩ pf s0) pf - V0 := by
      rw [get_total_value_congr s1 _ pf
        (apply_hist_row_price_congr w ⟨row, 0⟩ pf s s0 hp)]
    obtain ⟨sfin, hfin⟩ := ih s0 s2 (acc ++ [get_total_value s1 pf - V0])
      (fun r hr => hrows r (List.mem_cons_of_mem row hr)) hp2
    refine ⟨sfin, ?_⟩
    unfold var_loop
    rw [hv]
    simp only
    rw [← hs1, ← hs2, hfin, hd]
    simp

/-- `calculate_var` on non-empty rows at a confidence in `(0, 1]` completes
and returns the negated `⌊(1−α)·N⌋`-quantile of the ascending-sorted list of
per-scenario value changes of the original portfolio state. -/
theorem calculate_var_spec (w : World) (pf : List Pos) (rows : List (List ℝ))
    (conf : ℝ) (s : MState) (hrows : ∀ row ∈ rows, row ≠ []) (hne : rows ≠ [])
    (h0 : 0 < conf) (h1 : conf ≤ 1) :
    ∃ sfin, calculate_var w pf rows conf s =
      some (-(((rows.map (fun row =>
          get_total_value (apply_hist_row w ⟨row, 0⟩ pf s) pf -
            get_total_value s pf)).mergeSort).getD
        ⌊(1 - conf) * (rows.length : ℝ)⌋₊ 0), sfin) := by
  obtain ⟨sfin, hloop⟩ := var_loop_spec w pf (get_total_value s pf) rows s s [] hrows rfl
  set pnls := rows.map (fun row =>
    get_total_value (apply_hist_row w ⟨row, 0⟩ pf s) pf - get_total_value s pf) with hpnls
  have hlen : pnls.length = rows.length := by
    rw [hpnls, List.length_map]
  have hNpos : 0 < rows.length := List.length_pos.mpr hne
  have hidx : ⌊(1 - conf) * (pnls.length : ℝ)⌋₊ < pnls.mergeSort.length := by
    rw [List.length_mergeSort, hlen]
    have hcast : (0:ℝ) < (rows.length : ℝ) := by
      exact_mod_cast hNpos
    apply Nat.floor_lt (by nlinarith) |>.mpr
    nlinarith
  refine ⟨sfin, ?_⟩
  simp only [calculate_var]
  rw [hloop]
  simp only [List.nil_append]
  rw [dif_pos hidx]
  have hget : pnls.mergeSort.get ⟨⌊(1 - conf) * (pnls.length : ℝ)⌋₊, hidx⟩ =
      pnls.mergeSort.getD ⌊(1 - conf) * (pnls.length : ℝ)⌋₊ 0 := by
    rw [List.getD_eq_get _ _ hidx]
  rw [hget, hlen]

/-- C9 as amended.  After a completed `calculate_var`, every instrument's
price equals its value before the call (the restore loop writes every
snapshot back), and expiries of instruments not held in the portfolio are
untouched; when the portfolio's positions reference pairwise-distinct
instruments, every held option's time to expiry has decayed by `N·(1/252)`,
floored at zero——an option referenced by several positions instead decays
once per referencing position per scenario. -/
theorem C9_var_restores_prices_not_tte :
    ∀ (w : World) (pf : List Pos) (rows : List (List ℝ)) (conf : ℝ) (s : MState)
      (r : ℝ) (sfin : MState),
      calculate_var w pf rows conf s = some (r, sfin) →
      (∀ id, sfin.price id = s.price id) ∧
      (∀ id, id ∉ pf.map (·.instId) → sfin.tte id = s.tte id) ∧
      ((pf.map (·.instId)).Nodup → rows ≠ [] →
        ∀ id und strike c, w.insts id = InstKind.option und strike c →
          id ∈ pf.map (·.instId) →
          sfin.tte id = max 0 (s.tte id - (rows.length : ℝ) * (1 / 252))) := by
  intro w pf rows conf s r sfin h
  simp only [calculate_var] at h
  cases hloop : var_loop w pf (get_total_value s pf) rows s [] with
  | none =>
    rw [hloop] at h
    cases h
  | some q =>
    rcases q with ⟨s1, pnls⟩
    rw [hloop] at h
    simp only at h
    split at h
    · simp only [Option.some.injEq, Prod.mk.injEq] at h
      have hpost := var_loop_post w pf (get_total_value s pf) rows s [] s1 pnls hloop
      rw [← h.2]
      exact ⟨fun id => congrFun hpost.1 id, hpost.2.1, hpost.2.2⟩
    · cases h

/-- C9 counterexample.  A portfolio holding the same option in two positions
runs the historical visitor over it twice per scenario: after one scenario
its time to expiry is `1 − 2/252`, not the `max(0, tte − N·(1/252)) = 1 − 1/252`
the claim states for every portfolio. -/
theorem C9_counterexample :
    (calculate_var dup_w dup_pf [[(0:ℝ)]] 0.95 dup_s).map (fun q => q.2.tte 1) =
      some (1 - 2 / 252) ∧
    (1 - 2 / 252 : ℝ) ≠ max 0 (dup_s.tte 1 - ((1:ℕ) : ℝ) * (1 / 252)) := by
  constructor
  · obtain ⟨sfin, hv⟩ := calculate_var_spec dup_w dup_pf [[(0:ℝ)]] 0.95 dup_s
      (by intro row hr; simp only [List.mem_singleton] at hr; subst hr; simp)
      (by simp) (by norm_num) (by norm_num)
    have hsfin : sfin.tte 1 = 1 - 2 / 252 := by
      simp only [calculate_var] at hv
      cases hloop : var_loop dup_w dup_pf (get_total_value dup_s dup_pf) [[(0:ℝ)]] dup_s []
        with
      | none => rw [hloop] at hv; cases hv
      | some q =>
        rcases q with ⟨s1, pnls⟩
        rw [hloop] at hv
        simp only at hv
        split at hv
        · simp only [Option.some.injEq, Prod.mk.injEq] at hv
          rw [← hv.2]
          have hmk : mk_hist_visitor [(0:ℝ)] 0 = some ⟨[(0:ℝ)], 0⟩ := by
            simp [mk_hist_visitor]
          unfold var_loop at hloop
          rw [hmk] at hloop
          simp only [var_loop, Option.some.injEq, Prod.mk.injEq] at hloop
          obtain ⟨h1, -⟩ := hloop
          rw [← h1, restore_prices_tte]
          have hopt : dup_w.insts 1 = InstKind.option 0 50 true := by
            simp [dup_w, inst3]
          show (hist_visit ⟨[(0:ℝ)], 0⟩ dup_w
              (hist_visit ⟨[(0:ℝ)], 0⟩ dup_w dup_s 1) 1).tte 1 = 1 - 2 / 252
          rw [hist_visit_tte_option _ dup_w _ hopt, hist_visit_tte_option _ dup_w _ hopt]
          have hts : dup_s.tte 1 = 1 := rfl
          rw [hts, max_eq_right (by norm_num : (0:ℝ) ≤ 1 - 1 / 252),
            show (1:ℝ) - 1 / 252 - 1 / 252 = 1 - 2 / 252 by ring]
          exact max_eq_right (by norm_num)
        · cases hv
    rw [hv]
    simp [hsfin]
  · norm_num [dup_s, mk_initial_state]

/-- Witness for C9 on a portfolio holding the option once. -/
theorem C9_witness :
    (calculate_var w_single single_pf [[(0:ℝ)]] 0.95 dup_s).map
        (fun q => q.2.tte 1) = some (max 0 (dup_s.tte 1 - (1:ℝ) * (1 / 252))) ∧
    (calculate_var w_single single_pf [[(0:ℝ)]] 0.95 dup_s).map
        (fun q => q.2.price 0) = some (dup_s.price 0) := by
  obtain ⟨sfin, hv⟩ := calculate_var_spec w_single single_pf [[(0:ℝ)]] 0.95 dup_s
    (by intro row hr; simp only [List.mem_singleton] at hr; subst hr; simp)
    (by simp) (by norm_num) (by norm_num)
  have h9 := C9_var_restores_prices_not_tte w_single single_pf [[(0:ℝ)]] 0.95 dup_s _ sfin hv
  constructor
  · rw [hv]
    have := h9.2.2 (by simp [single_pf]) (by simp) 1 0 50 true
      (by simp [w_single, inst3]) (by simp [single_pf])
    simp only [Option.map_some', this, List.length_singleton]
    norm_num
  · rw [hv]
    simp [h9.1 0]

/-- C6.  For every portfolio and non-empty scenario list (each row non-empty,
confidence in `(0,1]`), `calculate_var` returns `−Δ[⌊(1−α)·N⌋]` where `Δ` is
the ascending-sorted list of per-scenario portfolio value changes; on the
spec's worked single-stock example it returns 300. -/
theorem C6_var_quantile :
    (∀ (w : World) (pf : List Pos) (rows : List (List ℝ)) (conf : ℝ) (s : MState),
      (∀ row ∈ rows, row ≠ []) → rows ≠ [] → 0 < conf → conf ≤ 1 →
      (calculate_var w pf rows conf s).map Prod.fst =
        some (-(((rows.map (fun row =>
            get_total_value (apply_hist_row w ⟨row, 0⟩ pf s) pf -
              get_total_value s pf)).mergeSort).getD
          ⌊(1 - conf) * (rows.length : ℝ)⌋₊ 0))) ∧
    (calculate_var var_w var_pf var_rows 0.95 var_s).map Prod.fst = some 300 := by
  have hgen : ∀ (w : World) (pf : List Pos) (rows : List (List ℝ)) (conf : ℝ) (s : MState),
      (∀ row ∈ rows, row ≠ []) → rows ≠ [] → 0 < conf → conf ≤ 1 →
      (calculate_var w pf rows conf s).map Prod.fst =
        some (-(((rows.map (fun row =>
            get_total_value (apply_hist_row w ⟨row, 0⟩ pf s) pf -
              get_total_value s pf)).mergeSort).getD
          ⌊(1 - conf) * (rows.length : ℝ)⌋₊ 0)) := by
    intro w pf rows conf s hrows hne h0 h1
    obtain ⟨sfin, hv⟩ := calculate_var_spec w pf rows conf s hrows hne h0 h1
    rw [hv]
    rfl
  refine ⟨hgen, ?_⟩
  rw [hgen var_w var_pf var_rows 0.95 var_s
    (by intro row hr
        simp only [var_rows, List.mem_cons, List.not_mem_nil, or_false] at hr
        rcases hr with h | h | h | h | h <;> (subst h; simp))
    (by simp [var_rows]) (by norm_num) (by norm_num)]
  have hlist : var_rows.map (fun row =>
      get_total_value (apply_hist_row var_w ⟨row, 0⟩ var_pf var_s) var_pf -
        get_total_value var_s var_pf) = [-300, -100, 0, 100, 200] := by
    simp only [var_rows, var_w, var_pf, var_s, mk_initial_state, List.map_cons,
      List.map_nil, apply_hist_row, List.foldl_cons, List.foldl_nil, hist_visit,
      get_total_value, get_market_value, Function.update_same, List.getD]
    norm_num [Function.update_same]
  rw [hlist]
  rw [List.mergeSort_eq_self (by norm_num [List.sorted_cons])]
  have hflr : ⌊(1 - (0.95:ℝ)) * ((var_rows.length : ℕ) : ℝ)⌋₊ = 0 := by
    apply Nat.floor_eq_zero.mpr
    norm_num [var_rows]
  rw [hflr]
  norm_num [List.getD]

/-- Witness for C6 at the spec's worked example. -/
theorem C6_witness :
    (var_rows ≠ [] ∧ (0:ℝ) < 0.95 ∧ (0.95:ℝ) ≤ 1) ∧
    (calculate_var var_w var_pf var_rows 0.95 var_s).map Prod.fst =
      some (-(((var_rows.map (fun row =>
          get_total_value (apply_hist_row var_w ⟨row, 0⟩ var_pf var_s) var_pf -
            get_total_value var_s var_pf)).mergeSort).getD
        ⌊(1 - (0.95:ℝ)) * ((var_rows.length : ℕ) : ℝ)⌋₊ 0)) :=
  ⟨⟨by simp [var_rows], by norm_num, by norm_num⟩,
    C6_var_quantile.1 var_w var_pf var_rows 0.95 var_s
      (by intro row hr
          simp only [var_rows, List.mem_cons, List.not_mem_nil, or_false] at hr
          rcases hr with h | h | h | h | h <;> (subst h; simp))
      (by simp [var_rows]) (by norm_num) (by norm_num)⟩

/-! ### Ordering of stock updates and option repricing in `simulate_daily`
(claim C3) -/

theorem uov_nonopt (m : BSModel) (env : SimEnv) (w : World) (dt : ℝ) (s : MState) (id : ℕ)
    (h : ∀ und strike c, w.insts id ≠ InstKind.option und strike c) :
    update_option_visit m env w dt s id = s := by
  cases hw : w.insts id with
  | stock => simp [update_option_visit, hw]
  | option und strike c => exact absurd hw (h und strike c)
  | bond d cr => simp [update_option_visit, hw]

theorem uov_price_other (m : BSModel) (env : SimEnv) (w : World) (dt : ℝ) (s : MState)
    {j id : ℕ} (h : id ≠ j) :
    (update_option_visit m env w dt s j).price id = s.price id := by
  cases hw : w.insts j with
  | stock => simp [update_option_visit, hw]
  | option und strike c =>
    simp only [update_option_visit, hw]
    split_ifs <;> simp [Function.update_noteq h]
  | bond d cr => simp [update_option_visit, hw]

theorem uov_tte_other (m : BSModel) (env : SimEnv) (w : World) (dt : ℝ) (s : MState)
    {j id : ℕ} (h : id ≠ j) :
    (update_option_visit m env w dt s j).tte id = s.tte id := by
  cases hw : w.insts j with
  | stock => simp [update_option_visit, hw]
  | option und strike c =>
    simp only [update_option_visit, hw]
    split_ifs <;> simp [Function.update_noteq h]
  | bond d cr => simp [update_option_visit, hw]

theorem reprice_now_congr (m : BSModel) (env : SimEnv) {st st' : MState}
    {id und : ℕ} {strike : ℝ} {c : Bool}
    (h1 : st.price und = st'.price und) (h2 : st.tte id = st'.tte id) :
    reprice_now m env st id und strike c = reprice_now m env st' id und strike c := by
  unfold reprice_now
  rw [h1, h2]

/-- Processing an option position leaves it priced consistently with the
state it produced: its new price is the repricing function of its (new)
expiry and its underlying's current price. -/
theorem uov_establishes (m : BSModel) (env : SimEnv) (w : World) (dt : ℝ) (s : MState)
    {j und : ℕ} {strike : ℝ} {c : Bool}
    (hw : w.insts j = InstKind.option und strike c) (hu : w.insts und = InstKind.stock) :
    (update_option_visit m env w dt s j).price j =
      reprice_now m env (update_option_visit m env w dt s j) j und strike c := by
  have hju : und ≠ j := by
    intro he
    rw [he, hw] at hu
    cases hu
  simp only [update_option_visit, hw]
  split_ifs with ht <;>
    simp_all [reprice_now, Function.update_same, Function.update_noteq hju]

theorem uov_fold_frame (m : BSModel) (env : SimEnv) (w : World) (dt : ℝ) :
    ∀ (l : List Pos) (u0 : MState) (id : ℕ), id ∉ l.map (·.instId) →
      (l.foldl (fun st q => update_option_visit m env w dt st q.instId) u0).price id =
          u0.price id ∧
        (l.foldl (fun st q => update_option_visit m env w dt st q.instId) u0).tte id =
          u0.tte id := by
  intro l
  induction l with
  | nil => intro u0 id _; exact ⟨rfl, rfl⟩
  | cons q rest ih =>
    intro u0 id h
    simp only [List.map_cons, List.mem_cons, not_or] at h
    have := ih (update_option_visit m env w dt u0 q.instId) id h.2
    exact ⟨this.1.trans (uov_price_other m env w dt u0 h.1),
      this.2.trans (uov_tte_other m env w dt u0 h.1)⟩

theorem uov_fold_nonopt (m : BSModel) (env : SimEnv) (w : World) (dt : ℝ) :
    ∀ (l : List Pos) (u0 : MState) (id : ℕ),
      (∀ und strike c, w.insts id ≠ InstKind.option und strike c) →
      (l.foldl (fun st q => update_option_visit m env w dt st q.instId) u0).price id =
          u0.price id ∧
        (l.foldl (fun st q => update_option_visit m env w dt st q.instId) u0).tte id =
          u0.tte id := by
  intro l
  induction l with
  | nil => intro u0 id _; exact ⟨rfl, rfl⟩
  | cons q rest ih =>
    intro u0 id hno
    have step : (update_option_visit m env w dt u0 q.instId).price id = u0.price id ∧
        (update_option_visit m env w dt u0 q.instId).tte id = u0.tte id := by
      by_cases hq : id = q.instId
      · rw [← hq, uov_nonopt m env w dt u0 id hno]
        exact ⟨rfl, rfl⟩
      · exact ⟨uov_price_other m env w dt u0 hq, uov_tte_other m env w dt u0 hq⟩
    have := ih (update_option_visit m env w dt u0 q.instId) id hno
    exact ⟨this.1.trans step.1, this.2.trans step.2⟩

/-- After the option-update pass, every option position of the processed list
is priced from the final state: final expiry, final underlying price. -/
theorem uov_fold_reads_final (m : BSModel) (env : SimEnv) (w : World) (dt : ℝ)
    (hwf : ∀ id und strike c,
      w.insts id = InstKind.option und strike c → w.insts und = InstKind.stock) :
    ∀ (l : List Pos) (u0 : MState), ∀ p ∈ l, ∀ (und : ℕ) (strike : ℝ) (c : Bool),
      w.insts p.instId = InstKind.option und strike c →
      (l.foldl (fun st q => update_option_visit m env w dt st q.instId) u0).price p.instId =
        reprice_now m env
          (l.foldl (fun st q => update_option_visit m env w dt st q.instId) u0)
          p.instId und strike c := by
  intro l
  induction l with
  | nil =>
    intro u0 p hp
    cases hp
  | cons q rest ih =>
    intro u0 p hp und strike c hw
    rcases List.mem_cons.mp hp with hpq | hpr
    · subst hpq
      by_cases hin : p.instId ∈ rest.map (·.instId)
      · rcases List.mem_map.mp hin with ⟨q', hq', hq'eq⟩
        have hkind : w.insts q'.instId = InstKind.option und strike c := by
          rw [hq'eq, hw]
        have := ih (update_option_visit m env w dt u0 p.instId) q' hq' und strike c hkind
        rw [hq'eq] at this
        exact this
      · have hstock : w.insts und = InstKind.stock := hwf p.instId und strike c hw
        have hframe := uov_fold_frame m env w dt rest
          (update_option_visit m env w dt u0 p.instId) p.instId hin
        have hund := uov_fold_nonopt m env w dt rest
          (update_option_visit m env w dt u0 p.instId) und
          (by rw [hstock]; intro _ _ _ h; cases h)
        show (rest.foldl _ (update_option_visit m env w dt u0 p.instId)).price p.instId = _
        rw [hframe.1, uov_establishes m env w dt u0 hw hstock]
        exact (reprice_now_congr m env hund.1.symm hframe.2.symm)
    · exact ih (update_option_visit m env w dt u0 q.instId) p hpr und strike c hw

/-- C3 as amended.  On the correlated branch of `simulate_daily` (non-empty
collected stock set and a correlation matrix present) every stock's final
price is already fixed by the stock-update phase——so all stock price updates
happen before any option is repriced——and every option position ends priced
by the repricing function evaluated at the final (post-update) price of its
underlying and its final expiry.  On the fallback branch the Monte Carlo
visitor interleaves updates in position order instead (counterexample). -/
theorem C3_correlated_ordering :
    ∀ (w : World) (m : BSModel) (env : SimEnv) (s : MState),
      (∀ id und strike c,
        w.insts id = InstKind.option und strike c → w.insts und = InstKind.stock) →
      (collect_stocks w).1 ≠ [] → 0 < env.corrSize →
      (∀ id, w.insts id = InstKind.stock →
        (simulate_daily w m env s).price id =
          (stock_update_phase env (1 / 252) (collect_stocks w).1 (collect_stocks w).2
            s).price id) ∧
      (∀ pf ∈ w.portfolios, ∀ p ∈ pf, ∀ (und : ℕ) (strike : ℝ) (c : Bool),
        w.insts p.instId = InstKind.option und strike c →
        (simulate_daily w m env s).price p.instId =
          reprice_now m env (simulate_daily w m env s) p.instId und strike c) := by
  intro w m env s hwf h1 h2
  have hcond : (collect_stocks w).1 ≠ [] ∧ 0 < env.corrSize := ⟨h1, h2⟩
  have hsd : simulate_daily w m env s =
      { w.portfolios.foldl (update_options m env w (1 / 252))
          (stock_update_phase env (1 / 252) (collect_stocks w).1 (collect_stocks w).2 s) with
        day := (w.portfolios.foldl (update_options m env w (1 / 252))
          (stock_update_phase env (1 / 252) (collect_stocks w).1 (collect_stocks w).2
            s)).day + 1 } := by
    simp only [simulate_daily, if_pos hcond]
  have hflat : w.portfolios.foldl (update_options m env w (1 / 252))
        (stock_update_phase env (1 / 252) (collect_stocks w).1 (collect_stocks w).2 s) =
      (w.portfolios.flatten).foldl
        (fun st q => update_option_visit m env w (1 / 252) st q.instId)
        (stock_update_phase env (1 / 252) (collect_stocks w).1 (collect_stocks w).2 s) := by
    rw [List.foldl_flatten]
    rfl
  constructor
  · intro id hid
    rw [hsd]
    show (w.portfolios.foldl (update_options m env w (1 / 252)) _).price id = _
    rw [hflat]
    exact (uov_fold_nonopt m env w (1 / 252) _ _ id
      (by rw [hid]; intro _ _ _ h; cases h)).1
  · intro pf hpf p hp und strike c hw
    have hmem : p ∈ w.portfolios.flatten := List.mem_flatten.mpr ⟨pf, hpf, hp⟩
    have := uov_fold_reads_final m env w (1 / 252) hwf w.portfolios.flatten
      (stock_update_phase env (1 / 252) (collect_stocks w).1 (collect_stocks w).2 s)
      p hmem und strike c hw
    rw [hsd]
    show (w.portfolios.foldl (update_options m env w (1 / 252)) _).price p.instId =
      reprice_now m env _ p.instId und strike c
    rw [hflat]
    exact this.trans (reprice_now_congr m env rfl rfl)

/-- C3 counterexample.  On the fallback (uncorrelated) path, a portfolio
listing a call before its underlying reprices the option from the
pre-update underlying price: the option settles at intrinsic value `50`
computed from the old price `100`, while the stock's price then moves to
`100·e^{0.03/252} > 100`——so the repricing did not read the already-updated
underlying price, refuting the claim's `including the fallback path`. -/
theorem C3_counterexample :
    (simulate_daily w_fb m_bs env_fb s_fb).price 1 = 50 ∧
    (simulate_daily w_fb m_bs env_fb s_fb).price 1 ≠
      reprice_now m_bs env_fb (simulate_daily w_fb m_bs env_fb s_fb) 1 0 50 true := by
  have hcond : ¬ ((collect_stocks w_fb).1 ≠ [] ∧ 0 < env_fb.corrSize) := by
    rintro ⟨-, h⟩
    simp [env_fb] at h
  have hp1 : (simulate_daily w_fb m_bs env_fb s_fb).price 1 = 50 := by
    simp only [simulate_daily, if_neg hcond]
    norm_num [w_fb, s_fb, inst3, m_bs, mk_initial_state, mc_portfolio, mc_visit,
      price_option, Function.update]
  have htte : (simulate_daily w_fb m_bs env_fb s_fb).tte 1 = 0 := by
    simp only [simulate_daily, if_neg hcond]
    norm_num [w_fb, s_fb, inst3, m_bs, mk_initial_state, mc_portfolio, mc_visit,
      price_option, Function.update]
  have hp0 : 100 < (simulate_daily w_fb m_bs env_fb s_fb).price 0 := by
    simp only [simulate_daily, if_neg hcond]
    norm_num [w_fb, s_fb, inst3, m_bs, mk_initial_state, mc_portfolio, mc_visit, bs_step,
      price_option, Function.update]
  refine ⟨hp1, ?_⟩
  rw [hp1]
  simp only [reprice_now, htte, lt_irrefl, if_false, if_true]
  rw [max_eq_right (by linarith : (0:ℝ) ≤ (simulate_daily w_fb m_bs env_fb s_fb).price 0 - 50)]
  intro h
  linarith

/-- Witness for C3 on the correlated branch with one stock and one call. -/
theorem C3_witness :
    ((collect_stocks w_corr).1 ≠ [] ∧ 0 < env_corr.corrSize) ∧
    (simulate_daily w_corr m_bs env_corr s_fb).price 1 =
      reprice_now m_bs env_corr (simulate_daily w_corr m_bs env_corr s_fb) 1 0 50 true := by
  have hwf : ∀ id und strike c, w_corr.insts id = InstKind.option und strike c →
      w_corr.insts und = InstKind.stock := by
    intro id und strike c h
    simp only [w_corr, inst3] at h ⊢
    by_cases hid : id = 1
    · rw [if_pos hid] at h
      simp only [InstKind.option.injEq] at h
      rw [if_neg (by rw [← h.1]; norm_num)]
    · rw [if_neg hid] at h
      cases h
  have h1 : (collect_stocks w_corr).1 ≠ [] := by
    simp [collect_stocks, collect_stocks_pos, w_corr, inst3]
  have h2 : 0 < env_corr.corrSize := by norm_num [env_corr]
  exact ⟨⟨h1, h2⟩, (C3_correlated_ordering w_corr m_bs env_corr s_fb hwf h1 h2).2
    [⟨0, 1⟩, ⟨1, 1⟩] (List.mem_cons_self _ _) ⟨1, 1⟩
    (List.mem_cons_of_mem _ (List.mem_cons_self _ _)) 0 50 true (by simp [w_corr, inst3])⟩

end RiskEngine
